import Mathlib

/-!
# Verification development for `telegram/types.go`

A shallow embedding of the behavioural parts of `telegram/types.go`:

* the `Progress` tracker (`Set`, `Get`, `Data`, `Percentage`),
* `ActionResult.Cancel`,
* `Participant.GetRank`,
* the `Filters` record together with the filter-match contract.

Go `int64` values are embedded as `Int` (none of the embedded methods performs
integer arithmetic, so no wrap-around occurs); Go `float64` values are embedded
as IEEE-754 binary64 numbers with round-to-nearest, ties-to-even.
-/

namespace Telegram

/-! ## Go `float64`: IEEE-754 binary64 -/

/-- A Go `float64`.  `finite s m e` denotes `(-1)^s * m * 2^e`; the results of the
operations below are canonical: `2^52 ≤ m < 2^53` and `-1074 ≤ e ≤ 971` for normal
numbers, `m < 2^52` and `e = -1074` for subnormal numbers and the two zeros. -/
inductive F64 where
  | finite (sign : Bool) (m : Nat) (e : Int)
  | inf (sign : Bool)
  | nan
  deriving DecidableEq, Repr

namespace F64

/-- The signed zero. -/
def zero (s : Bool) : F64 := finite s 0 (-1074)

/-- Positive infinity. -/
def posInf : F64 := inf false

/-- Negative infinity. -/
def negInf : F64 := inf true

/-- Whether the value is neither an infinity nor a NaN. -/
def isFinite : F64 → Bool
  | finite _ _ _ => true
  | _ => false

/-- The rational value of a finite float. -/
def toRat : F64 → Option ℚ
  | finite s m e => some ((if s then -1 else 1) * (m : ℚ) * (2 : ℚ) ^ e)
  | _ => none

/-- Number of binary digits of `n`, computed with `fuel` halvings. -/
def bitLenAux : Nat → Nat → Nat
  | 0, _ => 0
  | fuel + 1, n => if n = 0 then 0 else bitLenAux fuel (n / 2) + 1

/-- Number of binary digits of `n` (`0` for `0`). -/
def bitLen (n : Nat) : Nat := bitLenAux n n

/-- The fraction `num / den / 2^e` as a pair numerator, denominator. -/
def scaled (num den : Nat) (e : Int) : Nat × Nat :=
  if 0 ≤ e then (num, den * 2 ^ e.toNat) else (num * 2 ^ (-e).toNat, den)

/-- The exponent `e` of the result's unit in the last place: the least `e ≥ -1074`
with `num / den < 2^(53 + e)`. -/
def chooseExp (num den : Nat) : Int :=
  let e0 : Int := (bitLen num : Int) - (bitLen den : Int) - 53
  let p0 := scaled num den e0
  max (if p0.1 / p0.2 < 2 ^ 53 then e0 else e0 + 1) (-1074)

/-- The integer nearest to `n / d`, ties to even. -/
def nearestEven (n d : Nat) : Nat :=
  let q := n / d
  let r := n % d
  if d < 2 * r ∨ (2 * r = d ∧ q % 2 = 1) then q + 1 else q

/-- The binary64 number nearest to `(-1)^s * num / den` (`den ≠ 0`), ties to even,
with gradual underflow and overflow to infinity. -/
def round (s : Bool) (num den : Nat) : F64 :=
  if num = 0 then zero s
  else
    let e := chooseExp num den
    let p := scaled num den e
    let m := nearestEven p.1 p.2
    if m = 2 ^ 53 then
      if 971 < e + 1 then inf s else finite s (2 ^ 52) (e + 1)
    else if 971 < e then inf s
    else finite s m e

/-- The binary64 number nearest to `(-1)^s * m * 2^e`. -/
def roundScaled (s : Bool) (m : Nat) (e : Int) : F64 :=
  if 0 ≤ e then round s (m * 2 ^ e.toNat) 1 else round s m (2 ^ (-e).toNat)

/-- Conversion `float64(n)` of an integer. -/
def ofInt (n : Int) : F64 :=
  if n = 0 then zero false else round (decide (n < 0)) n.natAbs 1

/-- Float division `x / y`. -/
def div : F64 → F64 → F64
  | nan, _ => nan
  | _, nan => nan
  | inf _, inf _ => nan
  | inf s, finite t _ _ => inf (xor s t)
  | finite s _ _, inf t => zero (xor s t)
  | finite s m e, finite t k f =>
    if k = 0 then (if m = 0 then nan else inf (xor s t))
    else if m = 0 then zero (xor s t)
    else if 0 ≤ e - f then round (xor s t) (m * 2 ^ (e - f).toNat) k
    else round (xor s t) m (k * 2 ^ (f - e).toNat)

/-- Float multiplication `x * y`. -/
def mul : F64 → F64 → F64
  | nan, _ => nan
  | _, nan => nan
  | inf s, inf t => inf (xor s t)
  | inf s, finite t k _ => if k = 0 then nan else inf (xor s t)
  | finite s m _, inf t => if m = 0 then nan else inf (xor s t)
  | finite s m e, finite t k f =>
    if m = 0 ∨ k = 0 then zero (xor s t) else roundScaled (xor s t) (m * k) (e + f)

end F64

/-! ## Progress -/

/-- The fields `current` and `total` of `Progress` (both `int64`).  The `rwlock` field
guards every method body; the embedding is sequential, each method runs atomically. -/
structure Progress where
  current : Int
  total : Int
  deriving DecidableEq, Repr

/-- Range of a Go `int64`. -/
def isInt64 (n : Int) : Prop := -2 ^ 63 ≤ n ∧ n < 2 ^ 63

instance (n : Int) : Decidable (isInt64 n) := by unfold isInt64; infer_instance

namespace Progress

/-- `func (p *Progress) Set(value int64)`: the state after the call. -/
def Set (p : Progress) (value : Int) : Progress :=
  { p with current := value }

/-- `func (p *Progress) Get() int64`: the result and the state after the call. -/
def Get (p : Progress) : Int × Progress :=
  (p.current, p)

/-- `func (p *Progress) Data() (total int64, current int64)`: the result pair
(total first, current second) and the state after the call. -/
def Data (p : Progress) : (Int × Int) × Progress :=
  ((p.total, p.current), p)

/-- `func (p *Progress) Percentage() float64`: the result and the state after the call. -/
def Percentage (p : Progress) : F64 × Progress :=
  (F64.mul (F64.div (F64.ofInt p.current) (F64.ofInt p.total)) (F64.ofInt 100), p)

/-- The invariant stated for the tracker. -/
def Inv (p : Progress) : Prop := 0 ≤ p.current ∧ p.current ≤ p.total

instance (p : Progress) : Decidable (Inv p) := by unfold Inv; infer_instance

end Progress

/-- One call on a `Progress`. -/
inductive ProgressOp where
  | Set (value : Int)
  | Get
  | Data
  | Percentage
  deriving DecidableEq, Repr

/-- The state after one call. -/
def Progress.step (p : Progress) : ProgressOp → Progress
  | .Set value => p.Set value
  | .Get => p.Get.2
  | .Data => p.Data.2
  | .Percentage => p.Percentage.2

/-- The state after a sequence of calls. -/
def Progress.run (p : Progress) (ops : List ProgressOp) : Progress :=
  ops.foldl Progress.step p

/-! ## ActionResult -/

/-- A Go `error` value. -/
structure Error where
  msg : String
  deriving DecidableEq, Repr

/-- An `InputPeer` value.  The interface and its implementations are declared outside
this file; a peer is identified by a number here. -/
structure InputPeer where
  id : Int
  deriving DecidableEq, Repr

/-- The `SendMessageAction` values.  `Cancel` builds `&SendMessageCancelAction{}`; the
other implementations of the interface are declared outside this file. -/
inductive SendMessageAction where
  | SendMessageCancelAction
  | Other (constructorID : Nat)
  deriving DecidableEq, Repr

/-- A `Client` value (the target of a `*Client`), declared outside this file. -/
structure Client where
  id : Nat
  deriving DecidableEq, Repr

/-- One `MessagesSetTyping(peer, topMsgID, action)` request issued through a client. -/
structure SetTypingCall where
  client : Client
  peer : InputPeer
  topMsgID : Int
  action : SendMessageAction
  deriving DecidableEq, Repr

/-- The environment of the clients: the requests issued so far, in order, and the pair
`(bool, error)` that `MessagesSetTyping` returns for a request issued after the given
earlier ones.  The method body is not part of this file; its reply is a parameter. -/
structure Net where
  sent : List SetTypingCall
  reply : List SetTypingCall → SetTypingCall → Bool × Option Error

/-- The call `c.MessagesSetTyping(peer, topMsgID, action)`: records the request and
returns the reply of the environment. -/
def Client.MessagesSetTyping (c : Client) (peer : InputPeer) (topMsgID : Int)
    (action : SendMessageAction) (w : Net) : (Bool × Option Error) × Net :=
  let call : SetTypingCall := ⟨c, peer, topMsgID, action⟩
  (w.reply w.sent call, { w with sent := w.sent ++ [call] })

/-- The struct `ActionResult`; `none` is a nil `Peer` interface or a nil `*Client`. -/
structure ActionResult where
  Peer : Option InputPeer
  Client : Option Client
  deriving DecidableEq, Repr

/-- `func (a *ActionResult) Cancel() bool`: the result and the environment after the
call. -/
def ActionResult.Cancel (a : ActionResult) (w : Net) : Bool × Net :=
  match a.Peer, a.Client with
  | none, _ => (false, w)
  | _, none => (false, w)
  | some peer, some c =>
    let r := c.MessagesSetTyping peer 0 SendMessageAction.SendMessageCancelAction w
    match r.1.2 with
    | some _ => (false, r.2)
    | none => (r.1.1, r.2)

/-- The request that `Cancel` issues for a peer through a client. -/
def cancelCall (c : Client) (peer : InputPeer) : SetTypingCall :=
  ⟨c, peer, 0, SendMessageAction.SendMessageCancelAction⟩

/-! ## Participant -/

/-- A `UserObj` value, declared outside this file. -/
structure UserObj where
  ID : Int
  deriving DecidableEq, Repr

/-- The fields of `ChatAdminRights` read by the accessors of this file. -/
structure ChatAdminRights where
  ChangeInfo : Bool
  PostMessages : Bool
  EditMessages : Bool
  DeleteMessages : Bool
  BanUsers : Bool
  InviteUsers : Bool
  PinMessages : Bool
  AddAdmins : Bool
  Anonymous : Bool
  ManageCall : Bool
  deriving DecidableEq, Repr

/-- The target of a `*ChannelParticipantCreator`; `GetRank` reads its `Rank`. -/
structure ChannelParticipantCreator where
  Rank : String
  deriving DecidableEq, Repr

/-- The target of a `*ChannelParticipantAdmin`; `GetRank` reads its `Rank`. -/
structure ChannelParticipantAdmin where
  Rank : String
  deriving DecidableEq, Repr

/-- A non-nil `ChannelParticipant` interface value, by dynamic type: a
`*ChannelParticipantCreator`, a `*ChannelParticipantAdmin` (either pointer may itself be
nil, `none`), or a value of any other implementation of the interface (declared outside
this file and identified by a number). -/
inductive ChannelParticipant where
  | Creator (pp : Option ChannelParticipantCreator)
  | Admin (pp : Option ChannelParticipantAdmin)
  | Other (constructorID : Nat)
  deriving DecidableEq, Repr

/-- A run-time failure of a Go function. -/
inductive RuntimeError where
  | nilDereference
  deriving DecidableEq, Repr

set_option linter.dupNamespace false in
/-- The struct `Participant`; `none` is a nil pointer or a nil interface. -/
structure Participant where
  User : Option UserObj
  Admin : Bool
  Banned : Bool
  Creator : Bool
  Left : Bool
  Participant : Option ChannelParticipant
  Rights : Option ChatAdminRights
  deriving DecidableEq, Repr

/-- `func (p Participant) IsCreator() bool`. -/
def Participant.IsCreator (p : Telegram.Participant) : Bool := p.Creator

/-- `func (p Participant) IsAdmin() bool`. -/
def Participant.IsAdmin (p : Telegram.Participant) : Bool := p.Admin

/-- `func (p Participant) IsBanned() bool`. -/
def Participant.IsBanned (p : Telegram.Participant) : Bool := p.Banned

/-- `func (p Participant) IsLeft() bool`. -/
def Participant.IsLeft (p : Telegram.Participant) : Bool := p.Left

/-- `func (p Participant) GetRank() string`: the two type assertions, in order.  An
assertion succeeds on the dynamic type alone, also for a nil pointer of that type; reading
`pp.Rank` through a nil pointer fails at run time. -/
def Participant.GetRank (p : Telegram.Participant) : Except RuntimeError String :=
  match p.Participant with
  | some (ChannelParticipant.Creator pp) =>
    match pp with
    | some c => Except.ok c.Rank
    | none => Except.error RuntimeError.nilDereference
  | some (ChannelParticipant.Admin pp) =>
    match pp with
    | some a => Except.ok a.Rank
    | none => Except.error RuntimeError.nilDereference
  | _ => Except.ok ""

/-! ## Filters -/

/-- Modelled from the spec: the type `NewMessage` is declared outside this file.  A
message is described by its chat identifier, its sender identifier and the eight
conditions that the boolean flags of `Filters` can require. -/
structure NewMessage where
  chatID : Int
  senderID : Int
  isPrivate : Bool
  isGroup : Bool
  isChannel : Bool
  isCommand : Bool
  isText : Bool
  isMedia : Bool
  isOutgoing : Bool
  isIncoming : Bool
  deriving DecidableEq, Repr

/-- The struct `Filters`.  `Func` is `none` when nil; a user predicate either returns a
boolean or fails. -/
structure Filters where
  IsPrivate : Bool
  IsGroup : Bool
  IsChannel : Bool
  IsCommand : Bool
  IsText : Bool
  IsMedia : Bool
  Func : Option (NewMessage → Except Error Bool)
  BlackListChats : List Int
  WhiteListChats : List Int
  Users : List Int
  Outgoing : Bool
  Incoming : Bool

/-- Modelled from the spec: a flag set to true requires the condition of the message, a
flag left false requires nothing. -/
def Filters.flagsHold (f : Filters) (m : NewMessage) : Bool :=
  (!f.IsPrivate || m.isPrivate) && (!f.IsGroup || m.isGroup) &&
  (!f.IsChannel || m.isChannel) && (!f.IsCommand || m.isCommand) &&
  (!f.IsText || m.isText) && (!f.IsMedia || m.isMedia) &&
  (!f.Outgoing || m.isOutgoing) && (!f.Incoming || m.isIncoming)

/-- Modelled from the spec: the filter-match operation `Matches(f *Filters, m Message) bool`
is not part of this file.  Evaluation order: absent filter, blacklist, structural flags,
whitelist, users, and the user predicate last; a failing predicate gives a non-match and
its failure is reported (second component). -/
def Matches (f : Option Filters) (m : NewMessage) : Bool × Option Error :=
  match f with
  | none => (true, none)
  | some f =>
    if m.chatID ∈ f.BlackListChats then (false, none)
    else if !f.flagsHold m then (false, none)
    else if !f.WhiteListChats.isEmpty && !decide (m.chatID ∈ f.WhiteListChats) then
      (false, none)
    else if !f.Users.isEmpty && !decide (m.senderID ∈ f.Users) then (false, none)
    else
      match f.Func with
      | none => (true, none)
      | some g =>
        match g m with
        | Except.ok b => (b, none)
        | Except.error err => (false, some err)

/-! ## Concrete values used in the instances below -/

/-- An environment in which no request was issued yet and every request is answered
`(true, nil)`. -/
def Net.alwaysTrue : Net :=
  ⟨[], fun _ _ => (true, none)⟩

/-- An environment in which no request was issued yet, the first request is answered
`(true, nil)` and every later one `(false, nil)`. -/
def Net.onceTrue : Net :=
  ⟨[], fun earlier _ => (earlier.isEmpty, none)⟩

/-- An environment in which every request fails with an error, the boolean being true. -/
def Net.alwaysError : Net :=
  ⟨[], fun _ _ => (true, some ⟨"rpc failed"⟩)⟩

/-- A filter whose flags are all false, whose whitelist and user list are empty and whose
predicate is absent, with the given blacklist. -/
def Filters.permissive (blackList : List Int) : Filters :=
  ⟨false, false, false, false, false, false, none, blackList, [], [], false, false⟩

/-- A message of the given chat that satisfies every structural condition. -/
def NewMessage.inChat (chat : Int) : NewMessage :=
  ⟨chat, 7, true, true, true, true, true, true, true, true⟩

/-! ## Lemmas on the float operations -/

namespace F64

theorem bitLenAux_zero (fuel : Nat) : bitLenAux fuel 0 = 0 := by
  cases fuel <;> simp [bitLenAux]

theorem two_pow_bitLenAux_le (fuel : Nat) : ∀ n, n ≠ 0 → 2 ^ bitLenAux fuel n ≤ 2 * n := by
  induction fuel with
  | zero => intro n hn; simp [bitLenAux]; omega
  | succ k ih =>
    intro n hn
    simp only [bitLenAux, if_neg hn, pow_succ]
    by_cases h2 : n / 2 = 0
    · rw [h2, bitLenAux_zero]; omega
    · have := ih (n / 2) h2
      omega

theorem two_pow_bitLen_le (n : Nat) (hn : n ≠ 0) : 2 ^ bitLen n ≤ 2 * n :=
  two_pow_bitLenAux_le n n hn

theorem bitLen_one : bitLen 1 = 1 := by decide

theorem chooseExp_one_le (num : Nat) :
    chooseExp num 1 ≤ max ((bitLen num : Int) - 53) (-1074) := by
  unfold chooseExp
  simp only [bitLen_one]
  split_ifs <;> omega

theorem nearestEven_pos (n d : Nat) (hd : 0 < d) (h : d ≤ n) : 0 < nearestEven n d := by
  unfold nearestEven
  have : 0 < n / d := Nat.div_pos h hd
  simp only
  split_ifs <;> omega

theorem scaled_one_le (num : Nat) (hn : num ≠ 0) (e : Int)
    (he : e ≤ max ((bitLen num : Int) - 53) (-1074)) :
    0 < (scaled num 1 e).2 ∧ (scaled num 1 e).2 ≤ (scaled num 1 e).1 := by
  unfold scaled
  split_ifs with h0
  · simp only [one_mul]
    refine ⟨by positivity, ?_⟩
    have hb := two_pow_bitLen_le num hn
    have h1 : e.toNat + 53 ≤ bitLen num := by omega
    have h2 : 2 ^ (e.toNat + 53) ≤ 2 ^ bitLen num := Nat.pow_le_pow_right (by norm_num) h1
    rw [pow_add] at h2
    have h3 : (2:Nat) ^ e.toNat * 2 ≤ 2 ^ e.toNat * 2 ^ 53 :=
      Nat.mul_le_mul_left _ (by norm_num)
    omega
  · simp only
    refine ⟨by norm_num, ?_⟩
    have h2 : 0 < 2 ^ (-e).toNat := by positivity
    exact Nat.mul_pos (Nat.pos_of_ne_zero hn) h2

/-- Rounding a positive integer gives an infinity or a non-zero finite number, of the
given sign. -/
theorem round_one_cases (s : Bool) (num : Nat) (hn : num ≠ 0) :
    round s num 1 = inf s ∨ ∃ m e, m ≠ 0 ∧ round s num 1 = finite s m e := by
  have hs := scaled_one_le num hn (chooseExp num 1) (chooseExp_one_le num)
  have hp := nearestEven_pos _ _ hs.1 hs.2
  unfold round
  rw [if_neg hn]
  simp only
  split_ifs
  · exact Or.inl rfl
  · exact Or.inr ⟨2 ^ 52, _, by norm_num, rfl⟩
  · exact Or.inl rfl
  · exact Or.inr ⟨_, _, by omega, rfl⟩

/-- The conversion of a non-zero integer is an infinity or a non-zero finite number, with
the sign of the integer. -/
theorem ofInt_cases (n : Int) (hn : n ≠ 0) :
    ofInt n = inf (decide (n < 0)) ∨
      ∃ m e, m ≠ 0 ∧ ofInt n = finite (decide (n < 0)) m e := by
  unfold ofInt
  rw [if_neg hn]
  exact round_one_cases _ _ (by omega)

theorem ofInt_zero : ofInt 0 = finite false 0 (-1074) := rfl

/-- Ties go to the even significand: `2^53 + 1` converts to `2^53`, `2^53 + 3` to
`2^53 + 4`. -/
theorem ofInt_ties_to_even :
    ofInt (2 ^ 53 + 1) = finite false (2 ^ 52) 1 ∧
      ofInt (2 ^ 53 + 3) = finite false (2 ^ 52 + 2) 1 := by
  decide

/-- The largest `int64` converts to `2^63`, the smallest to `-2^63`. -/
theorem ofInt_int64_bounds :
    ofInt (2 ^ 63 - 1) = finite false (2 ^ 52) 11 ∧
      ofInt (-2 ^ 63) = finite true (2 ^ 52) 11 := by
  decide

set_option maxRecDepth 8000 in
/-- The quotient `1 / 10` is the float with bits `0x3FB999999999999A`, and `1 / 3 * 100`
the float with bits `0x4040AAAAAAAAAAAA`. -/
theorem div_mul_samples :
    div (ofInt 1) (ofInt 10) = finite false 0x1999999999999A (-56) ∧
      mul (div (ofInt 1) (ofInt 3)) (ofInt 100) = finite false 0x10AAAAAAAAAAAA (-47) := by
  decide

theorem ofInt_hundred : ofInt 100 = finite false 7036874417766400 (-46) := by decide

/-- A non-zero integer divided by zero and multiplied by 100 is the infinity with the sign
of the integer. -/
theorem mul_div_zero_of_ne (n : Int) (hn : n ≠ 0) :
    mul (div (ofInt n) (ofInt 0)) (ofInt 100) = inf (decide (n < 0)) := by
  rw [ofInt_zero, ofInt_hundred]
  rcases ofInt_cases n hn with h | ⟨m, e, hm, h⟩
  · rw [h]; simp [div, mul]
  · rw [h]; simp [div, mul, hm]

theorem lt_two_pow_bitLenAux (fuel : Nat) : ∀ n, n ≤ fuel → n < 2 ^ bitLenAux fuel n := by
  induction fuel with
  | zero => intro n hn; simp [bitLenAux]; omega
  | succ k ih =>
    intro n hn
    by_cases h0 : n = 0
    · subst h0; simp [bitLenAux]
    · simp only [bitLenAux, if_neg h0, pow_succ]
      have := ih (n / 2) (by omega)
      omega

theorem lt_two_pow_bitLen (n : Nat) : n < 2 ^ bitLen n :=
  lt_two_pow_bitLenAux n n le_rfl

theorem bitLen_le_of_lt (n b : Nat) (h : n < 2 ^ b) : bitLen n ≤ b := by
  by_cases h0 : n = 0
  · subst h0; simp [bitLen, bitLenAux]
  · have h1 := two_pow_bitLen_le n h0
    by_contra hc
    have h2 : 2 ^ (b + 1) ≤ 2 ^ bitLen n := Nat.pow_le_pow_right (by norm_num) (by omega)
    rw [pow_succ] at h2
    omega

theorem bitLen_pos (n : Nat) (h : n ≠ 0) : 1 ≤ bitLen n := by
  have h1 := lt_two_pow_bitLen n
  by_contra hc
  have : bitLen n = 0 := by omega
  rw [this] at h1
  omega

theorem le_chooseExp (num den : Nat) :
    (bitLen num : Int) - (bitLen den : Int) - 53 ≤ chooseExp num den ∧
      -1074 ≤ chooseExp num den := by
  unfold chooseExp
  simp only
  split_ifs <;> omega

theorem chooseExp_le (num den : Nat) :
    chooseExp num den ≤ max ((bitLen num : Int) - (bitLen den : Int) - 52) (-1074) := by
  unfold chooseExp
  simp only
  split_ifs <;> omega

theorem scaled_snd_pos (num den : Nat) (hd : den ≠ 0) (e : Int) : 0 < (scaled num den e).2 := by
  unfold scaled
  split_ifs
  · exact Nat.mul_pos (Nat.pos_of_ne_zero hd) (by positivity)
  · exact Nat.pos_of_ne_zero hd

/-- At the exponent one above the first estimate the quotient is below `2^53`. -/
theorem scaled_succ_lt (num den : Nat) (hd : den ≠ 0) :
    (scaled num den ((bitLen num : Int) - (bitLen den : Int) - 53 + 1)).1 <
      (scaled num den ((bitLen num : Int) - (bitLen den : Int) - 53 + 1)).2 * 2 ^ 53 := by
  have hn := lt_two_pow_bitLen num
  have hdd := two_pow_bitLen_le den hd
  unfold scaled
  split_ifs with h
  · simp only
    -- num < den * 2^(bn - bd - 52) * 2^53
    have e1 : ((bitLen num : Int) - (bitLen den : Int) - 53 + 1).toNat + 52 + bitLen den
        = bitLen num := by omega
    have h2 : 2 ^ bitLen num
        = 2 ^ ((bitLen num : Int) - (bitLen den : Int) - 53 + 1).toNat * 2 ^ 52 * 2 ^ bitLen den := by
      rw [← pow_add, ← pow_add, e1]
    generalize ((bitLen num : Int) - (bitLen den : Int) - 53 + 1).toNat = k at *
    calc num < 2 ^ bitLen num := hn
      _ = 2 ^ k * 2 ^ 52 * 2 ^ bitLen den := h2
      _ ≤ 2 ^ k * 2 ^ 52 * (2 * den) := Nat.mul_le_mul_left _ hdd
      _ = den * 2 ^ k * 2 ^ 53 := by ring
  · simp only
    have e1 : (-((bitLen num : Int) - (bitLen den : Int) - 53 + 1)).toNat + bitLen num
        = bitLen den + 52 := by omega
    generalize (-((bitLen num : Int) - (bitLen den : Int) - 53 + 1)).toNat = k at *
    have h2 : 2 ^ bitLen num * 2 ^ k = 2 ^ bitLen den * 2 ^ 52 := by
      rw [← pow_add, ← pow_add, add_comm, e1]
    have hk : 0 < 2 ^ k := by positivity
    calc num * 2 ^ k < 2 ^ bitLen num * 2 ^ k := Nat.mul_lt_mul_of_pos_right hn hk
      _ = 2 ^ bitLen den * 2 ^ 52 := h2
      _ ≤ (2 * den) * 2 ^ 52 := Nat.mul_le_mul_right _ hdd
      _ = den * 2 ^ 53 := by ring

/-- Raising a negative exponent to `-1074` keeps the quotient below `2^53`. -/
theorem scaled_clamp_lt (num den : Nat) (e : Int) (he : e < -1074)
    (h : (scaled num den e).1 < (scaled num den e).2 * 2 ^ 53) :
    (scaled num den (-1074)).1 < (scaled num den (-1074)).2 * 2 ^ 53 := by
  unfold scaled at h ⊢
  rw [if_neg (by omega)] at h
  rw [if_neg (by omega)]
  simp only at h ⊢
  have h1 : 2 ^ (-(-1074 : Int)).toNat ≤ 2 ^ (-e).toNat :=
    Nat.pow_le_pow_right (by norm_num) (by omega)
  calc num * 2 ^ (-(-1074 : Int)).toNat ≤ num * 2 ^ (-e).toNat := Nat.mul_le_mul_left _ h1
    _ < den * 2 ^ 53 := h

/-- At the chosen exponent the quotient is below `2^53`. -/
theorem scaled_chooseExp_lt (num den : Nat) (hd : den ≠ 0) :
    (scaled num den (chooseExp num den)).1 <
      (scaled num den (chooseExp num den)).2 * 2 ^ 53 := by
  have key : ∀ e1 : Int, (scaled num den e1).1 < (scaled num den e1).2 * 2 ^ 53 →
      (scaled num den (max e1 (-1074))).1 < (scaled num den (max e1 (-1074))).2 * 2 ^ 53 := by
    intro e1 h1
    by_cases hc : e1 < -1074
    · rw [max_eq_right (by omega)]
      exact scaled_clamp_lt num den e1 hc h1
    · rw [max_eq_left (by omega)]
      exact h1
  unfold chooseExp
  simp only
  split_ifs with hq
  · apply key
    have hpos := scaled_snd_pos num den hd ((bitLen num : Int) - (bitLen den : Int) - 53)
    rw [Nat.mul_comm]; exact (Nat.div_lt_iff_lt_mul hpos).mp hq
  · apply key
    exact scaled_succ_lt num den hd

theorem nearestEven_le (n d : Nat) : nearestEven n d ≤ n / d + 1 := by
  unfold nearestEven
  simp only
  split_ifs <;> omega

/-- A quotient whose numerator has at most 1023 binary digits rounds to a finite number
with significand below `2^53` and a bounded exponent. -/
theorem round_finite (s : Bool) (num den : Nat) (hn : num ≠ 0) (hd : den ≠ 0)
    (hb : (bitLen num : Int) - (bitLen den : Int) ≤ 1022) :
    ∃ m e, round s num den = finite s m e ∧ m < 2 ^ 53 ∧
      (bitLen num : Int) - (bitLen den : Int) - 53 ≤ e ∧
      e ≤ max ((bitLen num : Int) - (bitLen den : Int) - 51) (-1073) := by
  have hlt := scaled_chooseExp_lt num den hd
  have hpos := scaled_snd_pos num den hd (chooseExp num den)
  have hq := (Nat.div_lt_iff_lt_mul hpos).mpr (by rw [Nat.mul_comm]; exact hlt)
  have hm := nearestEven_le (scaled num den (chooseExp num den)).1
    (scaled num den (chooseExp num den)).2
  have hlo := le_chooseExp num den
  have hhi := chooseExp_le num den
  unfold round
  rw [if_neg hn]
  simp only
  split_ifs with h1 h2 h3
  · exfalso; omega
  · exact ⟨2 ^ 52, _, rfl, by norm_num, by omega, by omega⟩
  · exfalso; omega
  · exact ⟨_, _, rfl, by omega, by omega, by omega⟩

theorem pow_mul_bitLen_le (m a k b : Nat) (hm : m < 2 ^ a) (hk : k ≤ b) :
    bitLen (m * 2 ^ k) ≤ a + b := by
  apply bitLen_le_of_lt
  have h1 : 2 ^ k ≤ 2 ^ b := Nat.pow_le_pow_right (by norm_num) hk
  have h2 : 0 < 2 ^ k := by positivity
  calc m * 2 ^ k < 2 ^ a * 2 ^ k := Nat.mul_lt_mul_of_pos_right hm h2
    _ ≤ 2 ^ a * 2 ^ b := Nat.mul_le_mul_left _ h1
    _ = 2 ^ (a + b) := (pow_add 2 a b).symm

/-- The conversion of a non-zero `int64` is a non-zero finite number with the sign of the
integer, a significand below `2^53` and an exponent between `-53` and `12`. -/
theorem ofInt_finite (n : Int) (hn : n ≠ 0) (hr : -2 ^ 63 ≤ n ∧ n < 2 ^ 63) :
    ∃ m e, ofInt n = finite (decide (n < 0)) m e ∧ m ≠ 0 ∧ m < 2 ^ 53 ∧ -53 ≤ e ∧ e ≤ 12 := by
  have hnat : n.natAbs ≠ 0 := by omega
  have hlt : n.natAbs < 2 ^ 64 := by omega
  have hb := bitLen_le_of_lt _ _ hlt
  have hp := bitLen_pos _ hnat
  obtain ⟨m, e, hround, hm, hlo, hhi⟩ :=
    round_finite (decide (n < 0)) n.natAbs 1 hnat (by norm_num) (by rw [bitLen_one]; omega)
  rw [bitLen_one] at hlo hhi
  have hof : ofInt n = finite (decide (n < 0)) m e := by
    unfold ofInt
    rw [if_neg hn, hround]
  refine ⟨m, e, hof, ?_, hm, by omega, by omega⟩
  rcases ofInt_cases n hn with h | ⟨m2, e2, hm2, h⟩
  · rw [hof] at h; exact absurd h (by simp)
  · rw [hof] at h
    injection h with _ h2 _
    omega

theorem div_finite_eq (s t : Bool) (m k : Nat) (e f : Int) :
    div (finite s m e) (finite t k f) =
      if k = 0 then (if m = 0 then nan else inf (xor s t))
      else if m = 0 then zero (xor s t)
      else if 0 ≤ e - f then round (xor s t) (m * 2 ^ (e - f).toNat) k
      else round (xor s t) m (k * 2 ^ (f - e).toNat) := rfl

theorem mul_finite_eq (s t : Bool) (m k : Nat) (e f : Int) :
    mul (finite s m e) (finite t k f) =
      if m = 0 ∨ k = 0 then zero (xor s t) else roundScaled (xor s t) (m * k) (e + f) := rfl

/-- The quotient of two converted `int64` values, the divisor non-zero, is finite with
significand below `2^53` and exponent at most `66`. -/
theorem div_finite (s t : Bool) (m k : Nat) (e f : Int) (hm : m < 2 ^ 53) (hk0 : k ≠ 0)
    (he : m ≠ 0 → -53 ≤ e ∧ e ≤ 12) (hf : -53 ≤ f ∧ f ≤ 12) :
    ∃ q g, div (finite s m e) (finite t k f) = finite (xor s t) q g ∧ q < 2 ^ 53 ∧ g ≤ 66 := by
  rw [div_finite_eq, if_neg hk0]
  by_cases hm0 : m = 0
  · rw [if_pos hm0]
    exact ⟨0, -1074, rfl, by norm_num, by norm_num⟩
  · rw [if_neg hm0]
    have he2 := he hm0
    have hkb := bitLen_pos k hk0
    split_ifs with hd
    · have hnum : m * 2 ^ (e - f).toNat ≠ 0 :=
        Nat.mul_ne_zero hm0 (by positivity)
      have hbl := pow_mul_bitLen_le m 53 (e - f).toNat 65 hm (by omega)
      obtain ⟨q, g, hr, hq, _, hg⟩ :=
        round_finite (xor s t) (m * 2 ^ (e - f).toNat) k hnum hk0 (by omega)
      exact ⟨q, g, hr, hq, by omega⟩
    · have hden : k * 2 ^ (f - e).toNat ≠ 0 :=
        Nat.mul_ne_zero hk0 (by positivity)
      have hbl := bitLen_le_of_lt m 53 hm
      have hdb := bitLen_pos _ hden
      obtain ⟨q, g, hr, hq, _, hg⟩ :=
        round_finite (xor s t) m (k * 2 ^ (f - e).toNat) hm0 hden (by omega)
      exact ⟨q, g, hr, hq, by omega⟩

/-- A finite number with significand below `2^53` and exponent at most `66`, times the
float 100, is finite. -/
theorem mul_hundred_finite (s : Bool) (m : Nat) (e : Int) (hm : m < 2 ^ 53) (he : e ≤ 66) :
    (mul (finite s m e) (ofInt 100)).isFinite = true := by
  rw [ofInt_hundred, mul_finite_eq]
  by_cases hm0 : m = 0
  · simp [hm0, zero, isFinite]
  · rw [if_neg (by simp [hm0])]
    have hprod : m * 7036874417766400 < 2 ^ 106 := by
      calc m * 7036874417766400 < 2 ^ 53 * 7036874417766400 :=
            Nat.mul_lt_mul_of_pos_right hm (by norm_num)
        _ ≤ 2 ^ 106 := by norm_num
    have hprod0 : m * 7036874417766400 ≠ 0 := Nat.mul_ne_zero hm0 (by norm_num)
    unfold roundScaled
    split_ifs with hd
    · have hnum : m * 7036874417766400 * 2 ^ (e + -46).toNat ≠ 0 :=
        Nat.mul_ne_zero hprod0 (by positivity)
      have hbl := pow_mul_bitLen_le (m * 7036874417766400) 106 (e + -46).toNat 20 hprod
        (by omega)
      obtain ⟨q, g, hr, _⟩ :=
        round_finite (xor s false) _ 1 hnum (by norm_num) (by rw [bitLen_one]; omega)
      rw [hr]; rfl
    · have hden : 2 ^ (-(e + -46)).toNat ≠ 0 := by positivity
      have hbl := bitLen_le_of_lt _ 106 hprod
      have hdb := bitLen_pos _ hden
      obtain ⟨q, g, hr, _⟩ :=
        round_finite (xor s false) (m * 7036874417766400) _ hprod0 hden (by omega)
      rw [hr]; rfl

/-- For `int64` operands with a non-zero divisor, quotient times 100 is finite. -/
theorem mul_div_finite (c t : Int) (hc : -2 ^ 63 ≤ c ∧ c < 2 ^ 63)
    (ht : -2 ^ 63 ≤ t ∧ t < 2 ^ 63) (ht0 : t ≠ 0) :
    (mul (div (ofInt c) (ofInt t)) (ofInt 100)).isFinite = true := by
  obtain ⟨k, f, hk, hk0, _, hf⟩ := ofInt_finite t ht0 ht
  by_cases hc0 : c = 0
  · subst hc0
    rw [ofInt_zero, hk]
    obtain ⟨q, g, hq, hqlt, hg⟩ :=
      div_finite false (decide (t < 0)) 0 k (-1074) f (by norm_num) hk0
        (fun h => absurd rfl h) hf
    rw [hq]
    exact mul_hundred_finite _ q g hqlt hg
  · obtain ⟨m, e, hm, _, hmlt, he⟩ := ofInt_finite c hc0 hc
    rw [hm, hk]
    obtain ⟨q, g, hq, hqlt, hg⟩ :=
      div_finite (decide (c < 0)) (decide (t < 0)) m k e f hmlt hk0 (fun _ => he) hf
    rw [hq]
    exact mul_hundred_finite _ q g hqlt hg

end F64

/-! ## Progress: lemmas -/

theorem Progress.run_cons (p : Progress) (op : ProgressOp) (ops : List ProgressOp) :
    p.run (op :: ops) = (p.step op).run ops := rfl

theorem Progress.step_total (p : Progress) (op : ProgressOp) :
    (p.step op).total = p.total := by
  cases op <;> rfl

theorem Progress.run_total (ops : List ProgressOp) :
    ∀ p : Progress, (p.run ops).total = p.total := by
  induction ops with
  | nil => intro p; rfl
  | cons op ops ih =>
    intro p
    rw [Progress.run_cons, ih, Progress.step_total]

theorem Progress.run_reads (reads : List ProgressOp) :
    ∀ p : Progress, (∀ op ∈ reads, ∀ w, op ≠ ProgressOp.Set w) → p.run reads = p := by
  induction reads with
  | nil => intro p _; rfl
  | cons op ops ih =>
    intro p h
    rw [Progress.run_cons]
    have hstep : p.step op = p := by
      cases op with
      | Set w => exact absurd rfl (h (ProgressOp.Set w) (List.mem_cons_self _ _) w)
      | Get => rfl
      | Data => rfl
      | Percentage => rfl
    rw [hstep]
    exact ih p (fun o ho => h o (List.mem_cons_of_mem _ ho))

theorem Progress.run_inv (ops : List ProgressOp) :
    ∀ p : Progress, p.Inv →
      (∀ v, ProgressOp.Set v ∈ ops → 0 ≤ v ∧ v ≤ p.total) → (p.run ops).Inv := by
  induction ops with
  | nil => intro p hp _; exact hp
  | cons op ops ih =>
    intro p hp h
    rw [Progress.run_cons]
    have hstep : (p.step op).Inv := by
      cases op with
      | Set w => exact h w (List.mem_cons_self _ _)
      | Get => exact hp
      | Data => exact hp
      | Percentage => exact hp
    refine ih (p.step op) hstep (fun v hv => ?_)
    rw [Progress.step_total]
    exact h v (List.mem_cons_of_mem _ hv)

/-! ## Progress: the claims -/

/-- C1: for every progress tracker and every `v` with `0 ≤ v ≤ total`, `Get()` called
after `Set(v)` returns exactly `v`, also when calls other than `Set` come in between; the
tracker then satisfies `0 ≤ current ≤ total`. -/
theorem Progress.set_get_roundtrip (p : Progress) (v : Int) (h0 : 0 ≤ v) (h1 : v ≤ p.total)
    (reads : List ProgressOp) (hr : ∀ op ∈ reads, ∀ w, op ≠ ProgressOp.Set w) :
    (p.Set v).Get.1 = v ∧ ((p.Set v).run reads).Get.1 = v ∧ ((p.Set v).run reads).Inv := by
  rw [Progress.run_reads reads (p.Set v) hr]
  exact ⟨rfl, rfl, h0, h1⟩

/-- An instance of the round trip: total 100, `Set(50)`, three reads, `Get()`. -/
theorem Progress.set_get_roundtrip_witness :
    ((0 : Int) ≤ 50 ∧ (50 : Int) ≤ (Progress.mk 0 100).total) ∧
      (((Progress.mk 0 100).Set 50).Get.1 = 50 ∧
        (((Progress.mk 0 100).Set 50).run
          [ProgressOp.Get, ProgressOp.Percentage, ProgressOp.Data]).Get.1 = 50 ∧
        (((Progress.mk 0 100).Set 50).run
          [ProgressOp.Get, ProgressOp.Percentage, ProgressOp.Data]).Inv) :=
  ⟨by decide,
    Progress.set_get_roundtrip ⟨0, 100⟩ 50 (by decide) (by decide)
      [ProgressOp.Get, ProgressOp.Percentage, ProgressOp.Data] (by simp)⟩

set_option maxRecDepth 8000 in
/-- C2: for a tracker with `total ≠ 0`, `Percentage()` is the float quotient of the two
converted fields times the float 100, a finite number for `int64` fields; with
`total = 100`, after `Set(total/2)`, that is `Set(50)`, it is the float
`50 * 2^47 * 2^(-47)`, whose value is exactly 50. -/
theorem Progress.percentage_eq (p : Progress) (h : p.total ≠ 0) :
    p.Percentage.1 = F64.mul (F64.div (F64.ofInt p.current) (F64.ofInt p.total)) (F64.ofInt 100) ∧
      (isInt64 p.current → isInt64 p.total → p.Percentage.1.isFinite = true) ∧
      (p.total = 100 →
        Int.tdiv p.total 2 = 50 ∧
        (p.Set (Int.tdiv p.total 2)).Percentage.1 = F64.finite false (50 * 2 ^ 47) (-47) ∧
        (p.Set (Int.tdiv p.total 2)).Percentage.1 = F64.ofInt 50 ∧
        F64.toRat (p.Set (Int.tdiv p.total 2)).Percentage.1 = some 50) := by
  refine ⟨rfl, fun hc ht => F64.mul_div_finite p.current p.total hc ht h, fun h100 => ?_⟩
  obtain ⟨c, t⟩ := p
  simp only at h100
  subst h100
  have e1 : Int.tdiv 100 2 = 50 := by decide
  have e2 : ((Progress.mk c 100).Set 50).Percentage.1 = F64.finite false (50 * 2 ^ 47) (-47) := by
    show (Progress.mk 50 100).Percentage.1 = _
    decide
  have e3 : F64.ofInt 50 = F64.finite false (50 * 2 ^ 47) (-47) := by decide
  refine ⟨e1, ?_, ?_, ?_⟩
  · rw [e1]; exact e2
  · rw [e1, e2, e3]
  · rw [e1, e2]; norm_num [F64.toRat]

/-- An instance: a tracker with total 100 and current 7 reports 50 after `Set(50)`. -/
theorem Progress.percentage_eq_witness :
    (Progress.mk 7 100).total ≠ 0 ∧
      F64.toRat ((Progress.mk 7 100).Set 50).Percentage.1 = some 50 :=
  ⟨by decide, ((Progress.percentage_eq ⟨7, 100⟩ (by decide)).2.2 rfl).2.2.2⟩

/-- C6, as stated, fails: with `total = 0` and `current = -1` the result is `-Inf`, which
is neither `+Inf` nor NaN. -/
theorem Progress.percentage_zero_total_counterexample :
    (Progress.mk (-1) 0).Percentage.1 = F64.negInf ∧
      ¬ (∀ p : Progress, isInt64 p.current → p.total = 0 →
          p.Percentage.1 = F64.posInf ∨ p.Percentage.1 = F64.nan) := by
  have hev : (Progress.mk (-1) 0).Percentage.1 = F64.negInf := by decide
  refine ⟨hev, fun hall => ?_⟩
  have h := hall ⟨-1, 0⟩ (by decide) rfl
  rw [hev] at h
  revert h
  decide

/-- C6, amended: with `total = 0`, `Percentage()` returns a non-finite float: `+Inf` when
`current > 0`, NaN when `current = 0`, `-Inf` when `current < 0`. -/
theorem Progress.percentage_zero_total (p : Progress) (h : p.total = 0) :
    p.Percentage.1.isFinite = false ∧
      p.Percentage.1 =
        (if 0 < p.current then F64.posInf
         else if p.current = 0 then F64.nan else F64.negInf) := by
  obtain ⟨c, t⟩ := p
  simp only at h
  subst h
  show (F64.mul (F64.div (F64.ofInt c) (F64.ofInt 0)) (F64.ofInt 100)).isFinite = false ∧
    F64.mul (F64.div (F64.ofInt c) (F64.ofInt 0)) (F64.ofInt 100) = _
  by_cases hc : c = 0
  · subst hc
    have : F64.mul (F64.div (F64.ofInt 0) (F64.ofInt 0)) (F64.ofInt 100) = F64.nan := by decide
    rw [this]
    simp [F64.isFinite]
  · rw [F64.mul_div_zero_of_ne c hc]
    refine ⟨rfl, ?_⟩
    by_cases hpos : 0 < c
    · have hneg : ¬ c < 0 := by omega
      simp [hpos, hneg, F64.posInf]
    · have hneg : c < 0 := by omega
      simp [hpos, hc, hneg, F64.negInf]

/-- Instances: `+Inf` for `current = 7`, NaN for `current = 0`, with `total = 0`. -/
theorem Progress.percentage_zero_total_witness :
    (Progress.mk 7 0).total = 0 ∧
      (Progress.mk 7 0).Percentage.1 =
        (if (0 : Int) < (Progress.mk 7 0).current then F64.posInf
         else if (Progress.mk 7 0).current = 0 then F64.nan else F64.negInf) :=
  ⟨rfl, (Progress.percentage_zero_total ⟨7, 0⟩ rfl).2⟩

/-- C7, as stated, fails: `Set` accepts every `int64`, and `Set(11)` takes the tracker
with `current = 0`, `total = 10`, which satisfies `0 ≤ current ≤ total`, to one that
violates it; so does `Set(-1)`. -/
theorem Progress.inv_counterexample :
    (Progress.mk 0 10).Inv ∧ isInt64 11 ∧ ¬ ((Progress.mk 0 10).Set 11).Inv ∧
      ¬ ((Progress.mk 0 10).Set (-1)).Inv ∧
      ¬ (∀ (p : Progress) (v : Int), isInt64 v → p.Inv → (p.Set v).Inv) := by
  refine ⟨by decide, by decide, by decide, by decide, fun hall => ?_⟩
  have h := hall ⟨0, 10⟩ 11 (by decide) (by decide)
  revert h
  decide

/-- C7, amended: `Get`, `Data` and `Percentage` preserve `0 ≤ current ≤ total`; `Set(v)`
preserves it exactly when `0 ≤ v ≤ total`; hence every sequence of calls whose `Set`
arguments all lie in `[0, total]` preserves it. -/
theorem Progress.inv_preserved (p : Progress) (h : p.Inv) :
    p.Get.2.Inv ∧ p.Data.2.Inv ∧ p.Percentage.2.Inv ∧
      (∀ v : Int, (p.Set v).Inv ↔ 0 ≤ v ∧ v ≤ p.total) ∧
      (∀ ops : List ProgressOp,
        (∀ v, ProgressOp.Set v ∈ ops → 0 ≤ v ∧ v ≤ p.total) → (p.run ops).Inv) :=
  ⟨h, h, h, fun _ => Iff.rfl, fun ops hops => Progress.run_inv ops p h hops⟩

/-- An instance: from `current = 0`, `total = 10`, the calls `Set(3)`, `Get`, `Set(10)`,
`Percentage` keep the invariant. -/
theorem Progress.inv_preserved_witness :
    (Progress.mk 0 10).Inv ∧
      ((Progress.mk 0 10).run
        [ProgressOp.Set 3, ProgressOp.Get, ProgressOp.Set 10, ProgressOp.Percentage]).Inv :=
  ⟨by decide,
    (Progress.inv_preserved ⟨0, 10⟩ (by decide)).2.2.2.2
      [ProgressOp.Set 3, ProgressOp.Get, ProgressOp.Set 10, ProgressOp.Percentage]
      (by
        intro v hv
        simp at hv
        rcases hv with rfl | rfl <;> decide)⟩

/-- C9: `Set(v)` leaves `total` unchanged; `Get`, `Data` and `Percentage` leave the
whole tracker unchanged; no sequence of calls changes `total`; and after `Set(v)`,
`Data()` returns the pair (original total, `v`), total first. -/
theorem Progress.total_never_mutated (p : Progress) (v : Int) :
    (p.Set v).total = p.total ∧ (p.Set v).current = v ∧
      p.Get.2 = p ∧ p.Data.2 = p ∧ p.Percentage.2 = p ∧
      (∀ ops : List ProgressOp, (p.run ops).total = p.total) ∧
      (p.Set v).Data.1 = (p.total, v) :=
  ⟨rfl, rfl, rfl, rfl, rfl, fun ops => Progress.run_total ops p, rfl⟩

/-! ## ActionResult: lemmas -/

theorem cancel_some_snd (peer : InputPeer) (c : Client) (w : Net) :
    ((ActionResult.mk (some peer) (some c)).Cancel w).2 =
      { w with sent := w.sent ++ [cancelCall c peer] } := by
  simp only [ActionResult.Cancel, Client.MessagesSetTyping, cancelCall]
  cases (w.reply w.sent ⟨c, peer, 0, SendMessageAction.SendMessageCancelAction⟩).2 <;> rfl

theorem cancel_some_fst (peer : InputPeer) (c : Client) (w : Net) :
    ((ActionResult.mk (some peer) (some c)).Cancel w).1 =
      ((w.reply w.sent (cancelCall c peer)).2.isNone &&
        (w.reply w.sent (cancelCall c peer)).1) := by
  simp only [ActionResult.Cancel, Client.MessagesSetTyping, cancelCall]
  cases (w.reply w.sent ⟨c, peer, 0, SendMessageAction.SendMessageCancelAction⟩).2 <;> simp

theorem cancel_none_left (client : Option Client) (w : Net) :
    (ActionResult.mk none client).Cancel w = (false, w) := by
  cases client <;> rfl

theorem cancel_none_right (peer : Option InputPeer) (w : Net) :
    (ActionResult.mk peer none).Cancel w = (false, w) := by
  cases peer <;> rfl

/-! ## ActionResult: the claims -/

/-- C3: when `Peer` is nil or `Client` is nil, `Cancel()` returns false and leaves the
environment as it was: no `MessagesSetTyping` request is issued. -/
theorem cancel_nil (a : ActionResult) (w : Net)
    (h : a.Peer = none ∨ a.Client = none) :
    (a.Cancel w).1 = false ∧ (a.Cancel w).2 = w ∧ (a.Cancel w).2.sent = w.sent := by
  obtain ⟨peer, client⟩ := a
  simp only at h
  rcases h with h | h
  · subst h
    rw [cancel_none_left]
    exact ⟨rfl, rfl, rfl⟩
  · subst h
    rw [cancel_none_right]
    exact ⟨rfl, rfl, rfl⟩

/-- An instance: `ActionResult{Peer: nil, Client: c}.Cancel()` is false and issues no
request. -/
theorem cancel_nil_witness :
    ((ActionResult.mk none (some ⟨1⟩)).Peer = none ∨
        (ActionResult.mk none (some ⟨1⟩)).Client = none) ∧
      ((ActionResult.mk none (some ⟨1⟩)).Cancel Net.alwaysTrue).1 = false ∧
      ((ActionResult.mk none (some ⟨1⟩)).Cancel Net.alwaysTrue).2.sent = [] :=
  ⟨Or.inl rfl,
    (cancel_nil ⟨none, some ⟨1⟩⟩ Net.alwaysTrue (Or.inl rfl)).1,
    (cancel_nil ⟨none, some ⟨1⟩⟩ Net.alwaysTrue (Or.inl rfl)).2.2⟩

/-- C4: with non-nil `Peer` and `Client`, `Cancel()` issues exactly one request,
`MessagesSetTyping(Peer, 0, SendMessageCancelAction)`; it returns false whenever the
request returns an error, and true if and only if the request returns (true, nil). -/
theorem cancel_request (a : ActionResult) (w : Net) (peer : InputPeer)
    (c : Client) (hp : a.Peer = some peer) (hc : a.Client = some c) :
    (a.Cancel w).2.sent =
        w.sent ++ [⟨c, peer, 0, SendMessageAction.SendMessageCancelAction⟩] ∧
      (a.Cancel w).2.reply = w.reply ∧
      ((w.reply w.sent ⟨c, peer, 0, SendMessageAction.SendMessageCancelAction⟩).2 ≠ none →
        (a.Cancel w).1 = false) ∧
      ((a.Cancel w).1 = true ↔
        w.reply w.sent ⟨c, peer, 0, SendMessageAction.SendMessageCancelAction⟩
          = (true, none)) := by
  obtain ⟨ap, ac⟩ := a
  simp only at hp hc
  subst hp hc
  rw [cancel_some_snd, cancel_some_fst]
  simp only [cancelCall]
  generalize w.reply w.sent ⟨c, peer, 0, SendMessageAction.SendMessageCancelAction⟩ = r
  obtain ⟨b, err⟩ := r
  cases err <;> cases b <;> simp

/-- Instances: a reply (true, nil) gives true with one request recorded; a reply
(true, error) gives false. -/
theorem cancel_request_witness :
    ((ActionResult.mk (some ⟨5⟩) (some ⟨1⟩)).Peer = some ⟨5⟩ ∧
        (ActionResult.mk (some ⟨5⟩) (some ⟨1⟩)).Client = some ⟨1⟩) ∧
      ((ActionResult.mk (some ⟨5⟩) (some ⟨1⟩)).Cancel Net.alwaysTrue).2.sent =
        [⟨⟨1⟩, ⟨5⟩, 0, SendMessageAction.SendMessageCancelAction⟩] ∧
      ((ActionResult.mk (some ⟨5⟩) (some ⟨1⟩)).Cancel Net.alwaysTrue).1 = true ∧
      ((ActionResult.mk (some ⟨5⟩) (some ⟨1⟩)).Cancel Net.alwaysError).1 = false :=
  ⟨⟨rfl, rfl⟩,
    (cancel_request ⟨some ⟨5⟩, some ⟨1⟩⟩ Net.alwaysTrue ⟨5⟩ ⟨1⟩ rfl rfl).1,
    (cancel_request ⟨some ⟨5⟩, some ⟨1⟩⟩ Net.alwaysTrue ⟨5⟩ ⟨1⟩ rfl rfl).2.2.2.mpr rfl,
    (cancel_request ⟨some ⟨5⟩, some ⟨1⟩⟩ Net.alwaysError ⟨5⟩ ⟨1⟩ rfl rfl).2.2.1
      (by simp [Net.alwaysError])⟩

/-- C10, as stated, fails: when the environment answers every request with (true, nil),
`Cancel()` returns true, and `Cancel()` called again on the cancelled action returns
true, not false. -/
theorem cancel_again_counterexample :
    ((ActionResult.mk (some ⟨5⟩) (some ⟨1⟩)).Cancel Net.alwaysTrue).1 = true ∧
      ((ActionResult.mk (some ⟨5⟩) (some ⟨1⟩)).Cancel
        ((ActionResult.mk (some ⟨5⟩) (some ⟨1⟩)).Cancel Net.alwaysTrue).2).1 = true ∧
      ¬ (∀ (a : ActionResult) (w : Net),
          (a.Cancel w).1 = true → (a.Cancel (a.Cancel w).2).1 = false) := by
  refine ⟨rfl, rfl, fun hall => ?_⟩
  have h := hall ⟨some ⟨5⟩, some ⟨1⟩⟩ Net.alwaysTrue rfl
  exact absurd h (by decide)

/-- C10, amended: `Cancel()` called again after a `Cancel()` that returned true raises no
error (it returns a boolean), issues the cancel request once more, and returns false
unless that repeated request itself returns (true, nil). -/
theorem cancel_again (a : ActionResult) (w : Net)
    (h : (a.Cancel w).1 = true) :
    ∃ peer c, a.Peer = some peer ∧ a.Client = some c ∧
      (a.Cancel (a.Cancel w).2).2.sent =
        w.sent ++ [⟨c, peer, 0, SendMessageAction.SendMessageCancelAction⟩,
          ⟨c, peer, 0, SendMessageAction.SendMessageCancelAction⟩] ∧
      ((a.Cancel (a.Cancel w).2).1 = false ↔
        w.reply (w.sent ++ [⟨c, peer, 0, SendMessageAction.SendMessageCancelAction⟩])
          ⟨c, peer, 0, SendMessageAction.SendMessageCancelAction⟩ ≠ (true, none)) := by
  obtain ⟨ap, ac⟩ := a
  cases ap with
  | none => rw [cancel_none_left] at h; exact absurd h (by simp)
  | some peer =>
    cases ac with
    | none => rw [cancel_none_right] at h; exact absurd h (by simp)
    | some c =>
      refine ⟨peer, c, rfl, rfl, ?_, ?_⟩
      · rw [cancel_some_snd, cancel_some_snd]
        simp [cancelCall]
      · rw [cancel_some_fst, cancel_some_snd]
        simp only [cancelCall]
        generalize w.reply (w.sent ++ [⟨c, peer, 0, SendMessageAction.SendMessageCancelAction⟩])
          ⟨c, peer, 0, SendMessageAction.SendMessageCancelAction⟩ = r
        obtain ⟨b, err⟩ := r
        cases err <;> cases b <;> simp

/-- An instance: when only the first request is answered (true, nil), the first
`Cancel()` returns true and the second returns false. -/
theorem cancel_again_witness :
    ((ActionResult.mk (some ⟨5⟩) (some ⟨1⟩)).Cancel Net.onceTrue).1 = true ∧
      ((ActionResult.mk (some ⟨5⟩) (some ⟨1⟩)).Cancel
          ((ActionResult.mk (some ⟨5⟩) (some ⟨1⟩)).Cancel Net.onceTrue).2).1 = false ∧
      ∃ peer c, (ActionResult.mk (some ⟨5⟩) (some ⟨1⟩)).Peer = some peer ∧
        (ActionResult.mk (some ⟨5⟩) (some ⟨1⟩)).Client = some c ∧
        ((ActionResult.mk (some ⟨5⟩) (some ⟨1⟩)).Cancel
            ((ActionResult.mk (some ⟨5⟩) (some ⟨1⟩)).Cancel Net.onceTrue).2).2.sent =
          Net.onceTrue.sent ++ [⟨c, peer, 0, SendMessageAction.SendMessageCancelAction⟩,
            ⟨c, peer, 0, SendMessageAction.SendMessageCancelAction⟩] ∧
        (((ActionResult.mk (some ⟨5⟩) (some ⟨1⟩)).Cancel
            ((ActionResult.mk (some ⟨5⟩) (some ⟨1⟩)).Cancel Net.onceTrue).2).1 = false ↔
          Net.onceTrue.reply
              (Net.onceTrue.sent ++ [⟨c, peer, 0, SendMessageAction.SendMessageCancelAction⟩])
              ⟨c, peer, 0, SendMessageAction.SendMessageCancelAction⟩ ≠ (true, none)) :=
  ⟨rfl, rfl, cancel_again ⟨some ⟨5⟩, some ⟨1⟩⟩ Net.onceTrue rfl⟩

/-! ## Participant: the claim -/

/-- C5, as stated, fails: a `Participant` whose `Participant` field holds a nil
`*ChannelParticipantCreator` (or a nil `*ChannelParticipantAdmin`) is of the creator
(admin) variant, and `GetRank()` returns no string for it: reading `pp.Rank` fails. -/
theorem getRank_counterexample :
    Participant.GetRank
        ⟨none, false, false, true, false, some (ChannelParticipant.Creator none), none⟩
        = Except.error RuntimeError.nilDereference ∧
      Participant.GetRank
        ⟨none, true, false, false, false, some (ChannelParticipant.Admin none), none⟩
        = Except.error RuntimeError.nilDereference ∧
      ¬ (∀ p : Participant, ∃ rank : String, p.GetRank = Except.ok rank) := by
  refine ⟨rfl, rfl, fun hall => ?_⟩
  obtain ⟨rank, h⟩ :=
    hall ⟨none, false, false, true, false, some (ChannelParticipant.Creator none), none⟩
  have hev : Participant.GetRank
      ⟨none, false, false, true, false, some (ChannelParticipant.Creator none), none⟩
      = Except.error RuntimeError.nilDereference := rfl
  rw [hev] at h
  cases h

/-- C5, amended: `GetRank()` returns the stored `Rank` when `Participant` is a non-nil
pointer to a creator record or to an admin record, and the empty string for every other
variant and for the nil interface, whatever the `Admin`, `Banned`, `Creator` and `Left`
fields are; a creator with rank "Owner" gives "Owner" and a banned participant gives "". -/
theorem getRank_by_variant (p : Participant) :
    (∀ pp : ChannelParticipantCreator,
        p.Participant = some (ChannelParticipant.Creator (some pp)) →
          p.GetRank = Except.ok pp.Rank) ∧
      (∀ pp : ChannelParticipantAdmin,
        p.Participant = some (ChannelParticipant.Admin (some pp)) →
          p.GetRank = Except.ok pp.Rank) ∧
      ((∀ pp, p.Participant ≠ some (ChannelParticipant.Creator pp)) →
        (∀ pp, p.Participant ≠ some (ChannelParticipant.Admin pp)) →
          p.GetRank = Except.ok "") ∧
      (∀ admin banned creator left : Bool,
        Participant.GetRank ⟨p.User, admin, banned, creator, left, p.Participant, p.Rights⟩
          = p.GetRank) ∧
      Participant.GetRank
          ⟨p.User, p.Admin, p.Banned, p.Creator, p.Left,
            some (ChannelParticipant.Creator (some ⟨"Owner"⟩)), p.Rights⟩ = Except.ok "Owner" ∧
      (∀ k : Nat,
        Participant.GetRank
          ⟨p.User, false, true, false, false, some (ChannelParticipant.Other k), p.Rights⟩
          = Except.ok "") := by
  refine ⟨?_, ?_, ?_, fun _ _ _ _ => rfl, rfl, fun _ => rfl⟩
  · intro pp h
    simp [Participant.GetRank, h]
  · intro pp h
    simp [Participant.GetRank, h]
  · intro hc ha
    rcases hp : p.Participant with _ | cp
    · simp [Participant.GetRank, hp]
    · cases cp with
      | Creator pp => exact absurd hp (hc pp)
      | Admin pp => exact absurd hp (ha pp)
      | Other k => simp [Participant.GetRank, hp]

/-- Instances: an admin with rank "Mod" whose boolean fields all say otherwise gives "Mod";
a nil participant gives "". -/
theorem getRank_by_variant_witness :
    Participant.GetRank
        ⟨none, false, true, false, true, some (ChannelParticipant.Admin (some ⟨"Mod"⟩)), none⟩
        = Except.ok "Mod" ∧
      Participant.GetRank ⟨none, true, false, true, false, none, none⟩ = Except.ok "" :=
  ⟨(getRank_by_variant
      ⟨none, false, true, false, true, some (ChannelParticipant.Admin (some ⟨"Mod"⟩)), none⟩).2.1
      ⟨"Mod"⟩ rfl,
    (getRank_by_variant ⟨none, true, false, true, false, none, none⟩).2.2.1
      (fun _ h => by simp at h) (fun _ h => by simp at h)⟩

/-! ## Filters: the claim -/

/-- C8: when `BlackListChats` contains the chat of the message, the filter rejects the
message, whatever the other flags, lists and `Func` are; the predicate is not consulted
and nothing is reported. -/
theorem matches_blacklist (f : Filters) (m : NewMessage)
    (h : m.chatID ∈ f.BlackListChats) :
    (Matches (some f) m).1 = false ∧ Matches (some f) m = (false, none) := by
  simp [Matches, h]

/-- An instance: a filter that is permissive apart from its blacklist accepts a message of
chat 42 when the blacklist is empty and rejects it when the blacklist contains 42. -/
theorem matches_blacklist_witness :
    (NewMessage.inChat 42).chatID ∈ (Filters.permissive [5, 42]).BlackListChats ∧
      (Matches (some (Filters.permissive [])) (NewMessage.inChat 42)).1 = true ∧
      (Matches (some (Filters.permissive [5, 42])) (NewMessage.inChat 42)).1 = false :=
  ⟨by decide, by decide,
    (matches_blacklist (Filters.permissive [5, 42]) (NewMessage.inChat 42) (by decide)).1⟩

end Telegram
